import Mathlib

/-!
  Verification development for the DeployNet repository: the browser
  client's bounded `ContentCache` with LRU eviction, the tiered request
  resolver (`DeployNetClient.interceptRequest`), the client-side signaling
  handlers (`handleOffer` / `handleAnswer` / `handleIceCandidate`), and the
  Go signaling hub's broadcast loop (`Hub.Run`) together with
  `Client.ReadPump`.

  JavaScript `Map` objects are embedded as insertion-ordered association
  lists (`mapGet` / `mapSet` / `mapDelete` mirror `Map.get` / `Map.set` /
  `Map.delete`); string contents are embedded as byte lists, with
  `Blob([content]).size` becoming the list length. `Array.prototype.sort`
  with the comparator `a[1] - b[1]` is stable, and is embedded as a stable
  insertion sort on the timestamp component.
-/

/-- Byte string: the content value stored in the cache and carried in
payloads (`new Blob([content]).size` is its length). -/
abbrev Content := List Nat

/-- `Map.get` on an insertion-ordered association list. -/
def mapGet {β : Type} (k : String) : List (String × β) → Option β
  | [] => none
  | p :: rest => if p.1 = k then some p.2 else mapGet k rest

/-- `Map.set` on an insertion-ordered association list: update in place
when the key is present, append otherwise. -/
def mapSet {β : Type} (k : String) (v : β) : List (String × β) → List (String × β)
  | [] => [(k, v)]
  | p :: rest => if p.1 = k then (k, v) :: rest else p :: mapSet k v rest

/-- `Map.delete` on an insertion-ordered association list. -/
def mapDelete {β : Type} (k : String) : List (String × β) → List (String × β)
  | [] => []
  | p :: rest => if p.1 = k then mapDelete k rest else p :: mapDelete k rest

/-- The key list of an association list, in order. -/
def urls {β : Type} (m : List (String × β)) : List String := m.map (·.1)

/-- Byte size of a content value (`new Blob([content]).size`). -/
def contentSize (c : Content) : Nat := c.length

/-- Total byte size of the entries of a cache's `entries` map. -/
def sumSizes (m : List (String × Content)) : Nat :=
  (m.map (fun p => contentSize p.2)).sum

/-- The `ContentCache` state from `src/web/client.js`: capacity
(`maxSize`), the running byte counter (`currentSize`, a JS number, hence
`Int`), the URL→content map and the URL→last-access-time map. -/
structure ContentCache where
  maxSize : Nat
  currentSize : Int
  entries : List (String × Content)
  accessTime : List (String × Nat)
deriving Repr, DecidableEq

namespace ContentCache

/-- The state built by `new ContentCache(maxSize)`. -/
def empty (maxSize : Nat) : ContentCache := ⟨maxSize, 0, [], []⟩

/-- Stable insertion of one timestamped key into a time-ascending list:
the comparator `a[1] - b[1]` of `evictLRU`'s sort. -/
def timeLE (p q : String × Nat) : Prop := p.2 ≤ q.2

instance : DecidableRel timeLE := fun p q => Nat.decLe p.2 q.2

instance : IsTotal (String × Nat) timeLE := ⟨fun p q => Nat.le_total p.2 q.2⟩

instance : IsTrans (String × Nat) timeLE := ⟨fun _ _ _ => Nat.le_trans⟩

/-- The stable ascending-by-timestamp sort used by `evictLRU`
(`[...this.accessTime.entries()].sort((a, b) => a[1] - b[1])`). -/
def sortByTime (l : List (String × Nat)) : List (String × Nat) :=
  List.insertionSort timeLE l

/-- The eviction loop of `ContentCache.evictLRU`: walk the time-sorted
access list; the source's `if (content)` truthiness test skips a url whose
entry is absent or empty (a falsy string) — such an entry is left in both
maps — and otherwise deletes the entry from both maps, decrements
`currentSize`, and stops as soon as the freed space reaches
`requiredSpace`. -/
def evictLoop : ContentCache → List (String × Nat) → Nat → Nat → ContentCache
  | c, [], _, _ => c
  | c, p :: rest, freed, req =>
    match mapGet p.1 c.entries with
    | some content =>
      if content.isEmpty then evictLoop c rest freed req
      else if freed + contentSize content ≥ req then
        ⟨c.maxSize, c.currentSize - contentSize content,
          mapDelete p.1 c.entries, mapDelete p.1 c.accessTime⟩
      else
        evictLoop
          ⟨c.maxSize, c.currentSize - contentSize content,
            mapDelete p.1 c.entries, mapDelete p.1 c.accessTime⟩
          rest (freed + contentSize content) req
    | none => evictLoop c rest freed req

/-- `ContentCache.evictLRU(requiredSpace)`. -/
def evictLRU (req : Nat) (c : ContentCache) : ContentCache :=
  evictLoop c (sortByTime c.accessTime) 0 req

/-- `ContentCache.store(url, content)`, with the `Date.now()` reading
passed explicitly as `now`. Note the source increments `currentSize` by
the full new size even when `url` is already present, and evicts only when
`currentSize + size > maxSize`. -/
def store (now : Nat) (url : String) (content : Content) (c : ContentCache) :
    ContentCache :=
  let size := contentSize content
  let c₁ := if c.currentSize + (size : Int) > (c.maxSize : Int) then evictLRU size c else c
  ⟨c₁.maxSize, c₁.currentSize + (size : Int),
    mapSet url content c₁.entries, mapSet url now c₁.accessTime⟩

/-- `ContentCache.get(url)`, with the `Date.now()` reading passed
explicitly as `now`. The source tests `if (content)`, so an empty (falsy)
content is treated as a miss and its access time is not refreshed. -/
def get (now : Nat) (url : String) (c : ContentCache) :
    Option Content × ContentCache :=
  match mapGet url c.entries with
  | some content =>
    if content.isEmpty then (none, c)
    else (some content,
      ⟨c.maxSize, c.currentSize, c.entries, mapSet url now c.accessTime⟩)
  | none => (none, c)

end ContentCache

/-- One client-visible cache operation, for stating properties of whole
call sequences. -/
inductive CacheOp where
  | store (url : String) (content : Content)
  | get (url : String)
deriving Repr, DecidableEq

/-- Run one operation at clock value `now`. -/
def applyOp (now : Nat) (c : ContentCache) : CacheOp → ContentCache
  | .store url content => ContentCache.store now url content c
  | .get url => (ContentCache.get now url c).2

/-- Run a sequence of operations, the clock ticking once per call
(`Date.now()` advancing between calls). -/
def runOpsFrom (c : ContentCache) (now : Nat) : List CacheOp → ContentCache
  | [] => c
  | op :: rest => runOpsFrom (applyOp now c op) (now + 1) rest

/-- Run a sequence of operations on a fresh `ContentCache` of capacity
`maxSize`. -/
def runOps (maxSize : Nat) (ops : List CacheOp) : ContentCache :=
  runOpsFrom (ContentCache.empty maxSize) 0 ops

/-- Does a store operation's content fit in a capacity `C` on its own? -/
def sizeOkB (C : Nat) : CacheOp → Bool
  | .store _ content => contentSize content ≤ C
  | .get _ => true

/-- The wire message of both the Go hub (`SignalMessage` in
`src/cmd/signaling-server/main.go`) and the JS client: numeric type tag
(0 Offer, 1 Answer, 2 IceCandidate, 3 PeerDiscovery, 6 Register), opaque
payload bytes, sender id, timestamp and room id. -/
structure SignalMessage where
  type : Nat
  payload : Content
  senderId : String
  timestamp : Nat
  roomId : String
deriving Repr, DecidableEq

/-- The hub's room registry `Rooms map[string]map[string]*Client`,
flattened to room id → member client ids. -/
abbrev Rooms := List (String × List String)

/-- The member ids of a room (empty when the room does not exist). -/
def roomMembers (rooms : Rooms) (roomId : String) : List String :=
  (mapGet roomId rooms).getD []

/-- The broadcast arm of `Hub.Run` (`case message := <-h.Broadcast`): for
every client of `Rooms[message.RoomID]` whose id differs from
`message.SenderID`, the bytes `message.Payload` are written to that
client's send queue. The result lists each delivery as
(recipient id, delivered bytes). -/
def hubBroadcast (rooms : Rooms) (m : SignalMessage) : List (String × Content) :=
  ((roomMembers rooms m.roomId).filter (fun cid => cid ≠ m.senderId)).map
    (fun cid => (cid, m.payload))

/-- The per-message step of `Client.ReadPump`: after unmarshaling, the
hub overwrites the message's sender id with the id bound to the
connection (`signalMsg.SenderID = c.ID`) before handing it to
`hub.Broadcast`. -/
def readPumpForward (connId : String) (m : SignalMessage) : SignalMessage :=
  { m with senderId := connId }

/-- One peer connection as the client observes it: the remote description
(if `setRemoteDescription` has run) and the candidates passed to
`addIceCandidate`, in order. -/
structure PeerConn where
  remoteDesc : Option Content
  applied : List Content
deriving Repr, DecidableEq

/-- The client's `peerConnections` table. -/
structure PeerState where
  peerConnections : List (String × PeerConn)
deriving Repr, DecidableEq

/-- `DeployNetClient.handleOffer`: always construct a fresh
`RTCPeerConnection` for the sender, store it, and set the offer as its
remote description (the answer reply is an external send). -/
def handleOffer (st : PeerState) (m : SignalMessage) : PeerState :=
  ⟨mapSet m.senderId ⟨some m.payload, []⟩ st.peerConnections⟩

/-- `DeployNetClient.handleAnswer`: look the sender up in
`peerConnections`; when present, set the answer as its remote
description, otherwise do nothing. -/
def handleAnswer (st : PeerState) (m : SignalMessage) : PeerState :=
  match mapGet m.senderId st.peerConnections with
  | some pc =>
    ⟨mapSet m.senderId { pc with remoteDesc := some m.payload } st.peerConnections⟩
  | none => st

/-- `DeployNetClient.handleIceCandidate`: look the sender up in
`peerConnections`; when present, apply the candidate immediately via
`addIceCandidate`; when absent, the candidate is dropped — the source has
no queue. -/
def handleIceCandidate (st : PeerState) (m : SignalMessage) : PeerState :=
  match mapGet m.senderId st.peerConnections with
  | some pc =>
    ⟨mapSet m.senderId { pc with applied := pc.applied ++ [m.payload] } st.peerConnections⟩
  | none => st

/-- The `switch (message.type)` of `DeployNetClient.handleSignalingMessage`,
restricted to the session-affecting arms (PeerDiscovery and Register touch
only the peer registry and connection initiation). -/
def handleSignalingMessage (st : PeerState) (m : SignalMessage) : PeerState :=
  if m.type = 0 then handleOffer st m
  else if m.type = 1 then handleAnswer st m
  else if m.type = 2 then handleIceCandidate st m
  else st

/-- Process a sequence of inbound signaling messages in arrival order. -/
def processMessages (st : PeerState) : List SignalMessage → PeerState
  | [] => st
  | m :: rest => processMessages (handleSignalingMessage st m) rest

/-- A successful peer fetch: the response content and the peer that
answered (`{ content: data.content, peerId }`). -/
structure PeerReply where
  content : Content
  peerId : String
deriving Repr, DecidableEq

/-- `DeployNetClient.validateContent`: non-empty string content. -/
def validateContent (content : Content) : Bool := ¬ content.isEmpty

/-- `DeployNetClient.selectOptimalPeers`: the first `count` peer ids in
registry order. -/
def selectOptimalPeers (peers : List String) (count : Nat) : List String :=
  peers.take count

/-- The candidate loop of `DeployNetClient.requestFromPeers`: try each
candidate in order (`reply` abstracts the matching `contentResponse` or
its absence on timeout), accept the first validated response, record the
peers actually sent a `ContentRequest`. -/
def requestFromPeersGo (url : String) (reply : String → String → Option Content) :
    List String → Option PeerReply × List String
  | [] => (none, [])
  | p :: rest =>
    match reply p url with
    | some content =>
      if validateContent content then (some ⟨content, p⟩, [p])
      else
        ((requestFromPeersGo url reply rest).1, p :: (requestFromPeersGo url reply rest).2)
    | none =>
      ((requestFromPeersGo url reply rest).1, p :: (requestFromPeersGo url reply rest).2)

/-- `DeployNetClient.requestFromPeers`: null immediately when no peers are
known, otherwise fan out to the first three registry peers. -/
def requestFromPeers (url : String) (peers : List String)
    (reply : String → String → Option Content) : Option PeerReply × List String :=
  if peers.isEmpty then (none, [])
  else requestFromPeersGo url reply (selectOptimalPeers peers 3)

/-- An HTTP-level response as the resolver builds it: status, the
`X-DeployNet-Source` header value (empty when the header is absent, as on
the raw origin response), and the body. -/
structure Response where
  status : Nat
  source : String
  body : Content
deriving Repr, DecidableEq

/-- `DeployNetClient.createResponseFromCache`: status 200, source header
"cache". -/
def createResponseFromCache (content : Content) : Response := ⟨200, "cache", content⟩

/-- `DeployNetClient.createResponseFromPeer`: status 200, source header
"peer". -/
def createResponseFromPeer (r : PeerReply) : Response := ⟨200, "peer", r.content⟩

/-- The observable outcome of one `interceptRequest` call: the returned
response, the cache afterwards, the peers sent a `ContentRequest`, and
whether the origin fetch ran. -/
structure ResolveOutcome where
  response : Response
  cache : ContentCache
  peerRequests : List String
  originFetched : Bool
deriving Repr, DecidableEq

/-- `DeployNetClient.interceptRequest`: tier 1 consults the cache (a hit
returns at once, tagged "cache"); tier 2 fans out to peers and stores a
validated peer result; tier 3 returns the raw `originalFetch` response —
the source stores nothing on this path. `originResp` abstracts
`originalFetch(url, init)`. -/
def interceptRequest (now : Nat) (url : String) (peers : List String)
    (reply : String → String → Option Content) (originResp : Response)
    (c : ContentCache) : ResolveOutcome :=
  match ContentCache.get now url c with
  | (some content, c') => ⟨createResponseFromCache content, c', [], false⟩
  | (none, c') =>
    match requestFromPeers url peers reply with
    | (some r, tried) =>
      ⟨createResponseFromPeer r, ContentCache.store now url r.content c', tried, false⟩
    | (none, tried) => ⟨originResp, c', tried, true⟩

/-! ## Association-list map lemmas -/

theorem sumSizes_nil : sumSizes [] = 0 := rfl

theorem sumSizes_cons (p : String × Content) (m : List (String × Content)) :
    sumSizes (p :: m) = contentSize p.2 + sumSizes m := by
  simp [sumSizes]

theorem mapGet_eq_none_iff {β : Type} (k : String) (m : List (String × β)) :
    mapGet k m = none ↔ k ∉ urls m := by
  induction m with
  | nil => simp [mapGet, urls]
  | cons p rest ih =>
    by_cases h : p.1 = k
    · refine iff_of_false (by rw [mapGet, if_pos h]; simp) (not_not_intro ?_)
      exact List.mem_map.mpr ⟨p, List.mem_cons_self p rest, h⟩
    · rw [mapGet, if_neg h, ih]
      simp only [urls, List.map_cons, List.mem_cons, not_or]
      exact ⟨fun hk => ⟨fun he => h he.symm, hk⟩, fun hk => hk.2⟩

theorem mapGet_mem {β : Type} {k : String} {v : β} {m : List (String × β)}
    (h : mapGet k m = some v) : (k, v) ∈ m := by
  induction m with
  | nil => simp [mapGet] at h
  | cons p rest ih =>
    by_cases hp : p.1 = k
    · rw [mapGet, if_pos hp] at h
      injection h with h2
      obtain ⟨a, b⟩ := p
      exact List.mem_cons.mpr (Or.inl (by rw [← hp, ← h2]))
    · rw [mapGet, if_neg hp] at h
      exact List.mem_cons.mpr (Or.inr (ih h))

theorem mem_urls_of_mapGet {β : Type} {k : String} {v : β} {m : List (String × β)}
    (h : mapGet k m = some v) : k ∈ urls m :=
  List.mem_map.mpr ⟨(k, v), mapGet_mem h, rfl⟩

theorem mapGet_mapSet_self {β : Type} (k : String) (v : β) (m : List (String × β)) :
    mapGet k (mapSet k v m) = some v := by
  induction m with
  | nil => simp [mapSet, mapGet]
  | cons p rest ih =>
    by_cases hp : p.1 = k
    · simp [mapSet, hp, mapGet]
    · simp [mapSet, hp, mapGet, ih]

theorem mapGet_mapSet_ne {β : Type} {k' k : String} (v : β) (m : List (String × β))
    (h : k' ≠ k) : mapGet k' (mapSet k v m) = mapGet k' m := by
  have hkk : ¬ k = k' := fun hk => h hk.symm
  induction m with
  | nil => simp [mapSet, mapGet, hkk]
  | cons p rest ih =>
    by_cases hp : p.1 = k
    · have hp' : ¬ p.1 = k' := fun hk => h ((hp.symm.trans hk).symm)
      rw [mapSet, if_pos hp, mapGet, mapGet, if_neg hkk, if_neg hp']
    · rw [mapSet, if_neg hp, mapGet, mapGet]
      by_cases hp' : p.1 = k'
      · rw [if_pos hp', if_pos hp']
      · rw [if_neg hp', if_neg hp', ih]

theorem mem_of_mem_mapSet {β : Type} {p : String × β} {k : String} {v : β}
    {m : List (String × β)} (h : p ∈ mapSet k v m) : p = (k, v) ∨ p ∈ m := by
  induction m with
  | nil => simpa [mapSet] using h
  | cons q rest ih =>
    by_cases hq : q.1 = k
    · rw [mapSet, if_pos hq] at h
      rcases List.mem_cons.mp h with h' | h'
      · exact Or.inl h'
      · exact Or.inr (List.mem_cons.mpr (Or.inr h'))
    · rw [mapSet, if_neg hq] at h
      rcases List.mem_cons.mp h with h' | h'
      · exact Or.inr (List.mem_cons.mpr (Or.inl h'))
      · rcases ih h' with h'' | h''
        · exact Or.inl h''
        · exact Or.inr (List.mem_cons.mpr (Or.inr h''))

theorem mem_urls_mapSet {β : Type} (a k : String) (v : β) (m : List (String × β)) :
    a ∈ urls (mapSet k v m) ↔ a = k ∨ a ∈ urls m := by
  induction m with
  | nil => simp [mapSet, urls]
  | cons q rest ih =>
    by_cases hq : q.1 = k
    · subst hq
      simp [mapSet, urls]
    · rw [urls] at ih
      simp only [mapSet, if_neg hq, urls, List.map_cons, List.mem_cons, ih]
      tauto

theorem nodup_urls_mapSet {β : Type} (k : String) (v : β) {m : List (String × β)}
    (h : (urls m).Nodup) : (urls (mapSet k v m)).Nodup := by
  induction m with
  | nil => simp [mapSet, urls]
  | cons q rest ih =>
    rw [urls, List.map_cons, List.nodup_cons] at h
    by_cases hq : q.1 = k
    · subst hq
      simpa [mapSet, urls, List.nodup_cons] using h
    · rw [mapSet, if_neg hq, urls, List.map_cons, List.nodup_cons]
      refine ⟨fun hmem => ?_, ih h.2⟩
      rcases (mem_urls_mapSet q.1 k v rest).mp hmem with h' | h'
      · exact hq h'
      · exact h.1 h'

theorem mapSet_key_unique {β : Type} {p : String × β} {k : String} {v : β}
    {m : List (String × β)} (hnd : (urls m).Nodup) (hp : p ∈ mapSet k v m)
    (hk : p.1 = k) : p = (k, v) := by
  induction m with
  | nil =>
    simpa [mapSet] using hp
  | cons q rest ih =>
    rw [urls, List.map_cons, List.nodup_cons] at hnd
    by_cases hq : q.1 = k
    · rw [mapSet, if_pos hq] at hp
      rcases List.mem_cons.mp hp with h' | h'
      · exact h'
      · have hmem : k ∈ List.map (fun x => x.1) rest :=
          List.mem_map.mpr ⟨p, h', hk⟩
        rw [hq] at hnd
        exact absurd hmem hnd.1
    · rw [mapSet, if_neg hq] at hp
      rcases List.mem_cons.mp hp with h' | h'
      · rw [h'] at hk
        exact absurd hk hq
      · exact ih hnd.2 h'

theorem mapDelete_sublist {β : Type} (k : String) (m : List (String × β)) :
    (mapDelete k m).Sublist m := by
  induction m with
  | nil => simp [mapDelete]
  | cons q rest ih =>
    by_cases hq : q.1 = k
    · rw [mapDelete, if_pos hq]
      exact ih.cons q
    · rw [mapDelete, if_neg hq]
      exact ih.cons₂ q

theorem mem_mapDelete {β : Type} (p : String × β) (k : String) (m : List (String × β)) :
    p ∈ mapDelete k m ↔ p ∈ m ∧ p.1 ≠ k := by
  induction m with
  | nil => simp [mapDelete]
  | cons q rest ih =>
    by_cases hq : q.1 = k
    · rw [mapDelete, if_pos hq]
      simp only [List.mem_cons, ih]
      constructor
      · exact fun h => ⟨Or.inr h.1, h.2⟩
      · rintro ⟨h' | h', hne⟩
        · exact absurd (h' ▸ hq) hne
        · exact ⟨h', hne⟩
    · rw [mapDelete, if_neg hq]
      simp only [List.mem_cons, ih]
      constructor
      · rintro (h' | ⟨h', hne⟩)
        · exact ⟨Or.inl h', h' ▸ hq⟩
        · exact ⟨Or.inr h', hne⟩
      · rintro ⟨h' | h', hne⟩
        · exact Or.inl h'
        · exact Or.inr ⟨h', hne⟩

theorem mem_urls_mapDelete {β : Type} (a k : String) (m : List (String × β)) :
    a ∈ urls (mapDelete k m) ↔ a ∈ urls m ∧ a ≠ k := by
  constructor
  · intro h
    rcases List.mem_map.mp h with ⟨p, hp, rfl⟩
    rcases (mem_mapDelete p k m).mp hp with ⟨hm, hne⟩
    exact ⟨List.mem_map.mpr ⟨p, hm, rfl⟩, hne⟩
  · rintro ⟨h, hne⟩
    rcases List.mem_map.mp h with ⟨p, hp, rfl⟩
    exact List.mem_map.mpr ⟨p, (mem_mapDelete p k m).mpr ⟨hp, hne⟩, rfl⟩

theorem nodup_urls_mapDelete {β : Type} (k : String) {m : List (String × β)}
    (h : (urls m).Nodup) : (urls (mapDelete k m)).Nodup :=
  h.sublist ((mapDelete_sublist k m).map _)

theorem mapDelete_eq_of_not_mem {β : Type} {k : String} {m : List (String × β)}
    (h : k ∉ urls m) : mapDelete k m = m := by
  induction m with
  | nil => rfl
  | cons q rest ih =>
    rw [urls, List.map_cons, List.mem_cons] at h
    push_neg at h
    rw [mapDelete, if_neg (fun h' => h.1 h'.symm), ih h.2]

theorem mapGet_mapDelete_self {β : Type} (k : String) (m : List (String × β)) :
    mapGet k (mapDelete k m) = none :=
  (mapGet_eq_none_iff k (mapDelete k m)).mpr
    (fun h => ((mem_urls_mapDelete k k m).mp h).2 rfl)

theorem mapGet_mapDelete_ne {β : Type} {k k' : String} (m : List (String × β))
    (h : k ≠ k') : mapGet k (mapDelete k' m) = mapGet k m := by
  induction m with
  | nil => rfl
  | cons q rest ih =>
    by_cases hq : q.1 = k'
    · rw [mapDelete, if_pos hq, ih, mapGet, if_neg (fun hk => h (hk.symm.trans hq))]
    · rw [mapDelete, if_neg hq, mapGet, mapGet]
      by_cases hk : q.1 = k
      · rw [if_pos hk, if_pos hk]
      · rw [if_neg hk, if_neg hk, ih]

theorem mapGet_eq_of_mem_nodup {β : Type} {k : String} {v : β} {m : List (String × β)}
    (hnd : (urls m).Nodup) (h : (k, v) ∈ m) : mapGet k m = some v := by
  induction m with
  | nil => cases h
  | cons q rest ih =>
    rw [urls, List.map_cons, List.nodup_cons] at hnd
    rcases List.mem_cons.mp h with h' | h'
    · rw [mapGet, if_pos (by rw [← h'])]
      rw [← h']
    · have hne : ¬ q.1 = k := by
        intro he
        exact hnd.1 (he ▸ List.mem_map.mpr ⟨(k, v), h', rfl⟩)
      rw [mapGet, if_neg hne]
      exact ih hnd.2 h'

theorem eq_nil_of_isEmpty {l : Content} (h : l.isEmpty = true) : l = [] := by
  cases l with
  | nil => rfl
  | cons a t => exact Bool.noConfusion h

theorem sumSizes_mapSet_le (k : String) (v : Content) (m : List (String × Content)) :
    sumSizes (mapSet k v m) ≤ sumSizes m + contentSize v := by
  induction m with
  | nil => simp [mapSet, sumSizes]
  | cons q rest ih =>
    by_cases hq : q.1 = k
    · rw [mapSet, if_pos hq, sumSizes_cons, sumSizes_cons]
      dsimp only
      omega
    · rw [mapSet, if_neg hq, sumSizes_cons, sumSizes_cons]
      omega

theorem sumSizes_mapDelete {k : String} {v : Content} {m : List (String × Content)}
    (hnd : (urls m).Nodup) (h : mapGet k m = some v) :
    sumSizes m = sumSizes (mapDelete k m) + contentSize v := by
  induction m with
  | nil => simp [mapGet] at h
  | cons q rest ih =>
    rw [urls, List.map_cons, List.nodup_cons] at hnd
    by_cases hq : q.1 = k
    · rw [mapGet, if_pos hq] at h
      have hv : q.2 = v := by cases h; rfl
      have hnotin : k ∉ urls rest := hq ▸ hnd.1
      rw [mapDelete, if_pos hq, mapDelete_eq_of_not_mem hnotin, sumSizes_cons, hv]
      omega
    · rw [mapGet, if_neg hq] at h
      rw [mapDelete, if_neg hq, sumSizes_cons, sumSizes_cons, ih hnd.2 h]
      omega

theorem contentSize_le_sumSizes {k : String} {v : Content} {m : List (String × Content)}
    (h : mapGet k m = some v) : contentSize v ≤ sumSizes m := by
  induction m with
  | nil => simp [mapGet] at h
  | cons q rest ih =>
    by_cases hq : q.1 = k
    · rw [mapGet, if_pos hq] at h
      have hv : q.2 = v := by cases h; rfl
      rw [sumSizes_cons, hv]
      omega
    · rw [mapGet, if_neg hq] at h
      rw [sumSizes_cons]
      exact Nat.le_trans (ih h) (by omega)

theorem mapGet_eq_some_of_mem {β : Type} {k : String} {m : List (String × β)}
    (h : k ∈ urls m) : ∃ v, mapGet k m = some v := by
  rcases ho : mapGet k m with _ | v
  · exact absurd h ((mapGet_eq_none_iff k m).mp ho)
  · exact ⟨v, rfl⟩

/-! ## Sorting lemmas for `evictLRU` -/

theorem mem_sortByTime {l : List (String × Nat)} {p : String × Nat} :
    p ∈ ContentCache.sortByTime l ↔ p ∈ l :=
  List.mem_insertionSort ContentCache.timeLE

theorem sortByTime_perm (l : List (String × Nat)) :
    (ContentCache.sortByTime l).Perm l :=
  List.perm_insertionSort ContentCache.timeLE l

theorem sortByTime_sorted (l : List (String × Nat)) :
    (ContentCache.sortByTime l).Sorted ContentCache.timeLE :=
  List.sorted_insertionSort ContentCache.timeLE l

theorem nodup_urlsSortByTime {l : List (String × Nat)} (h : (urls l).Nodup) :
    ((ContentCache.sortByTime l).map (fun p => p.1)).Nodup := by
  have h' : (List.map (fun p : String × Nat => p.1) l).Nodup := h
  exact (((sortByTime_perm l).map (fun p => p.1)).nodup_iff).mpr h'

theorem mem_urlsSortByTime {l : List (String × Nat)} {k : String} :
    k ∈ (ContentCache.sortByTime l).map (fun p => p.1) ↔ k ∈ urls l := by
  constructor
  · intro h
    rcases List.mem_map.mp h with ⟨p, hp, rfl⟩
    exact List.mem_map.mpr ⟨p, mem_sortByTime.mp hp, rfl⟩
  · intro h
    rcases List.mem_map.mp h with ⟨p, hp, rfl⟩
    exact List.mem_map.mpr ⟨p, mem_sortByTime.mpr hp, rfl⟩

/-! ## Cache structural invariant -/

/-- The structural invariant of every reachable `ContentCache` state: the
two maps track the same keys without duplicates, and the `currentSize`
counter is at least the byte total of the present entries (the source
never subtracts the overwritten entry's size, so the counter only
over-approximates). -/
structure CacheInv (c : ContentCache) : Prop where
  entSub : ∀ k ∈ urls c.entries, k ∈ urls c.accessTime
  accSub : ∀ k ∈ urls c.accessTime, k ∈ urls c.entries
  ndEnt : (urls c.entries).Nodup
  ndAcc : (urls c.accessTime).Nodup
  sizeLe : (sumSizes c.entries : Int) ≤ c.currentSize

theorem cacheInv_empty (maxSize : Nat) : CacheInv (ContentCache.empty maxSize) :=
  ⟨fun _ h => h, fun _ h => h, List.nodup_nil, List.nodup_nil, by simp [ContentCache.empty, sumSizes]⟩

/-! ## Eviction-loop lemmas -/

/-- The source's `if (content)` truthiness test on a url's cache entry:
true exactly when the entry is present with non-empty content (an absent
url yields `undefined`, an empty string is falsy — both are skipped by
`evictLRU` and treated as a miss by `get`). -/
def entryTruthy (c : ContentCache) (k : String) : Bool :=
  !((mapGet k c.entries).getD []).isEmpty

theorem evictLoop_maxSize (sorted : List (String × Nat)) :
    ∀ (c : ContentCache) (freed req : Nat),
      (ContentCache.evictLoop c sorted freed req).maxSize = c.maxSize := by
  induction sorted with
  | nil => intro c freed req; rfl
  | cons p rest ih =>
    intro c freed req
    rcases hg : mapGet p.1 c.entries with _ | content
    · show (ContentCache.evictLoop c (p :: rest) freed req).maxSize = c.maxSize
      simp only [ContentCache.evictLoop, hg]
      exact ih c freed req
    · simp only [ContentCache.evictLoop, hg]
      by_cases hemp : content.isEmpty
      · rw [if_pos hemp]
        exact ih c freed req
      · rw [if_neg hemp]
        by_cases hcond : freed + contentSize content ≥ req
        · rw [if_pos hcond]
        · rw [if_neg hcond]
          exact ih _ _ _

theorem evictLoop_accessTime_sublist (sorted : List (String × Nat)) :
    ∀ (c : ContentCache) (freed req : Nat),
      (ContentCache.evictLoop c sorted freed req).accessTime.Sublist c.accessTime := by
  induction sorted with
  | nil => intro c freed req; exact List.Sublist.refl _
  | cons p rest ih =>
    intro c freed req
    rcases hg : mapGet p.1 c.entries with _ | content
    · simp only [ContentCache.evictLoop, hg]
      exact ih c freed req
    · simp only [ContentCache.evictLoop, hg]
      by_cases hemp : content.isEmpty
      · rw [if_pos hemp]
        exact ih c freed req
      · rw [if_neg hemp]
        by_cases hcond : freed + contentSize content ≥ req
        · rw [if_pos hcond]
          exact mapDelete_sublist p.1 c.accessTime
        · rw [if_neg hcond]
          exact (ih _ _ _).trans (mapDelete_sublist p.1 c.accessTime)

theorem evictLoop_entries_sublist (sorted : List (String × Nat)) :
    ∀ (c : ContentCache) (freed req : Nat),
      (ContentCache.evictLoop c sorted freed req).entries.Sublist c.entries := by
  induction sorted with
  | nil => intro c freed req; exact List.Sublist.refl _
  | cons p rest ih =>
    intro c freed req
    rcases hg : mapGet p.1 c.entries with _ | content
    · simp only [ContentCache.evictLoop, hg]
      exact ih c freed req
    · simp only [ContentCache.evictLoop, hg]
      by_cases hemp : content.isEmpty
      · rw [if_pos hemp]
        exact ih c freed req
      · rw [if_neg hemp]
        by_cases hcond : freed + contentSize content ≥ req
        · rw [if_pos hcond]
          exact mapDelete_sublist p.1 c.entries
        · rw [if_neg hcond]
          exact (ih _ _ _).trans (mapDelete_sublist p.1 c.entries)

theorem evictLoop_inv (sorted : List (String × Nat)) :
    ∀ (c : ContentCache) (freed req : Nat), CacheInv c →
      CacheInv (ContentCache.evictLoop c sorted freed req) := by
  induction sorted with
  | nil => intro c freed req h; exact h
  | cons p rest ih =>
    intro c freed req h
    rcases hg : mapGet p.1 c.entries with _ | content
    · simp only [ContentCache.evictLoop, hg]
      exact ih c freed req h
    · have hstep : CacheInv ⟨c.maxSize, c.currentSize - contentSize content,
          mapDelete p.1 c.entries, mapDelete p.1 c.accessTime⟩ := by
        refine ⟨?_, ?_, nodup_urls_mapDelete p.1 h.ndEnt,
          nodup_urls_mapDelete p.1 h.ndAcc, ?_⟩
        · intro k hk
          rcases (mem_urls_mapDelete k p.1 c.entries).mp hk with ⟨hm, hne⟩
          exact (mem_urls_mapDelete k p.1 c.accessTime).mpr ⟨h.entSub k hm, hne⟩
        · intro k hk
          rcases (mem_urls_mapDelete k p.1 c.accessTime).mp hk with ⟨hm, hne⟩
          exact (mem_urls_mapDelete k p.1 c.entries).mpr ⟨h.accSub k hm, hne⟩
        · have hsum := sumSizes_mapDelete h.ndEnt hg
          have hle := h.sizeLe
          simp only
          omega
      simp only [ContentCache.evictLoop, hg]
      by_cases hemp : content.isEmpty
      · rw [if_pos hemp]
        exact ih c freed req h
      · rw [if_neg hemp]
        by_cases hcond : freed + contentSize content ≥ req
        · rw [if_pos hcond]
          exact hstep
        · rw [if_neg hcond]
          exact ih _ _ _ hstep

theorem evictLoop_sum_bound (sorted : List (String × Nat)) :
    ∀ (c : ContentCache) (freed req : Nat),
      (∀ (k : String) (v : Content), mapGet k c.entries = some v → v ≠ [] →
        k ∈ sorted.map (fun p => p.1)) →
      (sorted.map (fun p => p.1)).Nodup →
      (urls c.entries).Nodup →
      sumSizes (ContentCache.evictLoop c sorted freed req).entries ≤
        sumSizes c.entries + freed - req := by
  induction sorted with
  | nil =>
    intro c freed req hcov _ hndE
    have hzero : ∀ p ∈ c.entries, contentSize p.2 = 0 := by
      intro p hp
      by_cases hv : p.2 = []
      · rw [hv]; rfl
      · exact absurd (hcov p.1 p.2 (mapGet_eq_of_mem_nodup hndE hp) hv)
          (List.not_mem_nil p.1)
    have hsum : sumSizes c.entries = 0 := by
      refine List.sum_eq_zero ?_
      intro x hx
      rcases List.mem_map.mp hx with ⟨p, hp, rfl⟩
      exact hzero p hp
    show sumSizes c.entries ≤ sumSizes c.entries + freed - req
    omega
  | cons p rest ih =>
    intro c freed req hcov hndS hndE
    rw [List.map_cons, List.nodup_cons] at hndS
    rcases hg : mapGet p.1 c.entries with _ | content
    · simp only [ContentCache.evictLoop, hg]
      have hcov' : ∀ (k : String) (v : Content), mapGet k c.entries = some v → v ≠ [] →
          k ∈ rest.map (fun q => q.1) := by
        intro k v hk hv
        have h0 := hcov k v hk hv
        rw [List.map_cons] at h0
        rcases List.mem_cons.mp h0 with h' | h'
        · rw [h'] at hk
          exact Option.noConfusion (hk.symm.trans hg)
        · exact h'
      exact ih c freed req hcov' hndS.2 hndE
    · simp only [ContentCache.evictLoop, hg]
      by_cases hemp : content.isEmpty
      · rw [if_pos hemp]
        have hcnil := eq_nil_of_isEmpty hemp
        have hcov' : ∀ (k : String) (v : Content), mapGet k c.entries = some v → v ≠ [] →
            k ∈ rest.map (fun q => q.1) := by
          intro k v hk hv
          have h0 := hcov k v hk hv
          rw [List.map_cons] at h0
          rcases List.mem_cons.mp h0 with h' | h'
          · rw [h'] at hk
            injection hk.symm.trans hg with hvc
            exact absurd (hvc.trans hcnil) hv
          · exact h'
        exact ih c freed req hcov' hndS.2 hndE
      · rw [if_neg hemp]
        have hsum := sumSizes_mapDelete hndE hg
        have hsz : contentSize content ≤ sumSizes c.entries := contentSize_le_sumSizes hg
        by_cases hcond : freed + contentSize content ≥ req
        · rw [if_pos hcond]
          simp only
          omega
        · rw [if_neg hcond]
          have hcov' : ∀ (k : String) (v : Content),
              mapGet k (mapDelete p.1 c.entries) = some v → v ≠ [] →
              k ∈ rest.map (fun q => q.1) := by
            intro k v hk hv
            have hne : k ≠ p.1 := by
              intro he
              rw [he, mapGet_mapDelete_self] at hk
              exact Option.noConfusion hk
            have hk' : mapGet k c.entries = some v := by
              rw [← mapGet_mapDelete_ne c.entries hne]
              exact hk
            have h0 := hcov k v hk' hv
            rw [List.map_cons] at h0
            rcases List.mem_cons.mp h0 with h' | h'
            · exact absurd h' hne
            · exact h'
          have := ih ⟨c.maxSize, c.currentSize - contentSize content,
              mapDelete p.1 c.entries, mapDelete p.1 c.accessTime⟩
              (freed + contentSize content) req hcov' hndS.2 (nodup_urls_mapDelete p.1 hndE)
          simp only at this
          omega

/-- Delete a list of keys in order — the shape of what `evictLRU` removes. -/
def deleteAll {β : Type} (ks : List String) (m : List (String × β)) : List (String × β) :=
  ks.foldl (fun acc k => mapDelete k acc) m

theorem deleteAll_nil {β : Type} (m : List (String × β)) : deleteAll [] m = m := rfl

theorem deleteAll_cons {β : Type} (k : String) (ks : List String) (m : List (String × β)) :
    deleteAll (k :: ks) m = deleteAll ks (mapDelete k m) := rfl

theorem evictLoop_initial_segment (sorted : List (String × Nat)) :
    ∀ (c : ContentCache) (freed req : Nat),
      (sorted.map (fun p => p.1)).Nodup →
      ∃ n, n ≤ (sorted.filter (fun p => entryTruthy c p.1)).length ∧
        (ContentCache.evictLoop c sorted freed req).entries =
          deleteAll (((sorted.filter (fun p => entryTruthy c p.1)).take n).map
            (fun p => p.1)) c.entries := by
  induction sorted with
  | nil =>
    intro c freed req _
    exact ⟨0, Nat.le_refl 0, rfl⟩
  | cons p rest ih =>
    intro c freed req hndS
    rw [List.map_cons, List.nodup_cons] at hndS
    rcases hg : mapGet p.1 c.entries with _ | content
    · have htr : entryTruthy c p.1 = false := by simp [entryTruthy, hg]
      have hfil : (p :: rest).filter (fun q => entryTruthy c q.1) =
          rest.filter (fun q => entryTruthy c q.1) := by
        simp [List.filter_cons, htr]
      simp only [ContentCache.evictLoop, hg]
      rw [hfil]
      exact ih c freed req hndS.2
    · simp only [ContentCache.evictLoop, hg]
      by_cases hemp : content.isEmpty
      · have htr : entryTruthy c p.1 = false := by simp [entryTruthy, hg, hemp]
        have hfil : (p :: rest).filter (fun q => entryTruthy c q.1) =
            rest.filter (fun q => entryTruthy c q.1) := by
          simp [List.filter_cons, htr]
        rw [if_pos hemp, hfil]
        exact ih c freed req hndS.2
      · have htr : entryTruthy c p.1 = true := by simp [entryTruthy, hg, hemp]
        have hfil : (p :: rest).filter (fun q => entryTruthy c q.1) =
            p :: rest.filter (fun q => entryTruthy c q.1) := by
          simp [List.filter_cons, htr]
        rw [if_neg hemp]
        by_cases hcond : freed + contentSize content ≥ req
        · rw [if_pos hcond]
          refine ⟨1, ?_, ?_⟩
          · rw [hfil]
            simp
          · rw [hfil]
            rfl
        · rw [if_neg hcond]
          rcases ih ⟨c.maxSize, c.currentSize - contentSize content,
              mapDelete p.1 c.entries, mapDelete p.1 c.accessTime⟩
              (freed + contentSize content) req hndS.2 with ⟨n, hn, heq⟩
          have hfilEq : rest.filter (fun q => entryTruthy
              (⟨c.maxSize, c.currentSize - contentSize content,
                mapDelete p.1 c.entries, mapDelete p.1 c.accessTime⟩ : ContentCache) q.1) =
              rest.filter (fun q => entryTruthy c q.1) := by
            refine List.filter_congr ?_
            intro q hq
            have hne : q.1 ≠ p.1 := by
              intro he
              exact hndS.1 (he ▸ List.mem_map.mpr ⟨q, hq, rfl⟩)
            show (!((mapGet q.1 (mapDelete p.1 c.entries)).getD []).isEmpty) =
              (!((mapGet q.1 c.entries).getD []).isEmpty)
            rw [mapGet_mapDelete_ne c.entries hne]
          rw [hfilEq] at hn heq
          refine ⟨n + 1, ?_, ?_⟩
          · rw [hfil]
            simpa using Nat.succ_le_succ hn
          · rw [hfil, List.take_succ_cons, List.map_cons, deleteAll_cons]
            exact heq

/-! ## Preservation lemmas for `store` and `get` -/

theorem evictLRU_maxSize (req : Nat) (c : ContentCache) :
    (ContentCache.evictLRU req c).maxSize = c.maxSize :=
  evictLoop_maxSize (ContentCache.sortByTime c.accessTime) c 0 req

theorem store_maxSize (now : Nat) (url : String) (content : Content) (c : ContentCache) :
    (ContentCache.store now url content c).maxSize = c.maxSize := by
  show (if c.currentSize + (contentSize content : Int) > (c.maxSize : Int)
      then ContentCache.evictLRU (contentSize content) c else c).maxSize = c.maxSize
  by_cases hcond : c.currentSize + (contentSize content : Int) > (c.maxSize : Int)
  · rw [if_pos hcond, evictLRU_maxSize]
  · rw [if_neg hcond]

theorem get_entries (now : Nat) (url : String) (c : ContentCache) :
    (ContentCache.get now url c).2.entries = c.entries := by
  rcases hg : mapGet url c.entries with _ | content
  · simp only [ContentCache.get, hg]
  · simp only [ContentCache.get, hg]
    by_cases he : content.isEmpty
    · rw [if_pos he]
    · rw [if_neg he]

theorem get_maxSize (now : Nat) (url : String) (c : ContentCache) :
    (ContentCache.get now url c).2.maxSize = c.maxSize := by
  rcases hg : mapGet url c.entries with _ | content
  · simp only [ContentCache.get, hg]
  · simp only [ContentCache.get, hg]
    by_cases he : content.isEmpty
    · rw [if_pos he]
    · rw [if_neg he]

theorem store_inv (now : Nat) (url : String) (content : Content) (c : ContentCache)
    (h : CacheInv c) : CacheInv (ContentCache.store now url content c) := by
  have hmain : ∀ c₁ : ContentCache, CacheInv c₁ →
      CacheInv ⟨c₁.maxSize, c₁.currentSize + (contentSize content : Int),
        mapSet url content c₁.entries, mapSet url now c₁.accessTime⟩ := by
    intro c₁ h₁
    refine ⟨?_, ?_, nodup_urls_mapSet url content h₁.ndEnt,
      nodup_urls_mapSet url now h₁.ndAcc, ?_⟩
    · intro k hk
      rcases (mem_urls_mapSet k url content c₁.entries).mp hk with h' | h'
      · exact (mem_urls_mapSet k url now c₁.accessTime).mpr (Or.inl h')
      · exact (mem_urls_mapSet k url now c₁.accessTime).mpr (Or.inr (h₁.entSub k h'))
    · intro k hk
      rcases (mem_urls_mapSet k url now c₁.accessTime).mp hk with h' | h'
      · exact (mem_urls_mapSet k url content c₁.entries).mpr (Or.inl h')
      · exact (mem_urls_mapSet k url content c₁.entries).mpr (Or.inr (h₁.accSub k h'))
    · have hle := sumSizes_mapSet_le url content c₁.entries
      have hsz := h₁.sizeLe
      simp only
      omega
  have h₁ : CacheInv (if c.currentSize + (contentSize content : Int) > (c.maxSize : Int)
      then ContentCache.evictLRU (contentSize content) c else c) := by
    by_cases hcond : c.currentSize + (contentSize content : Int) > (c.maxSize : Int)
    · rw [if_pos hcond]
      exact evictLoop_inv (ContentCache.sortByTime c.accessTime) c 0 (contentSize content) h
    · rw [if_neg hcond]
      exact h
  exact hmain _ h₁

theorem store_cap (now : Nat) (url : String) (content : Content) (c : ContentCache)
    (h : CacheInv c) (hcap : sumSizes c.entries ≤ c.maxSize)
    (hsz : contentSize content ≤ c.maxSize) :
    sumSizes (ContentCache.store now url content c).entries ≤ c.maxSize := by
  show sumSizes (mapSet url content
    (if c.currentSize + (contentSize content : Int) > (c.maxSize : Int)
      then ContentCache.evictLRU (contentSize content) c else c).entries) ≤ c.maxSize
  by_cases hcond : c.currentSize + (contentSize content : Int) > (c.maxSize : Int)
  · rw [if_pos hcond]
    have hcov : ∀ (k : String) (v : Content), mapGet k c.entries = some v → v ≠ [] →
        k ∈ (ContentCache.sortByTime c.accessTime).map (fun p => p.1) := by
      intro k v hk _
      exact mem_urlsSortByTime.mpr (h.entSub k (mem_urls_of_mapGet hk))
    have hbound : sumSizes (ContentCache.evictLRU (contentSize content) c).entries ≤
        sumSizes c.entries + 0 - contentSize content :=
      evictLoop_sum_bound (ContentCache.sortByTime c.accessTime) c 0 (contentSize content)
        hcov (nodup_urlsSortByTime h.ndAcc) h.ndEnt
    have hms := sumSizes_mapSet_le url content
      (ContentCache.evictLRU (contentSize content) c).entries
    omega
  · rw [if_neg hcond]
    have hms := sumSizes_mapSet_le url content c.entries
    have hle := h.sizeLe
    omega

theorem get_inv (now : Nat) (url : String) (c : ContentCache) (h : CacheInv c) :
    CacheInv (ContentCache.get now url c).2 := by
  rcases hg : mapGet url c.entries with _ | content
  · simp only [ContentCache.get, hg]
    exact h
  · simp only [ContentCache.get, hg]
    by_cases he : content.isEmpty
    · rw [if_pos he]
      exact h
    · rw [if_neg he]
      refine ⟨?_, ?_, h.ndEnt, nodup_urls_mapSet url now h.ndAcc, h.sizeLe⟩
      · intro k hk
        exact (mem_urls_mapSet k url now c.accessTime).mpr (Or.inr (h.entSub k hk))
      · intro k hk
        rcases (mem_urls_mapSet k url now c.accessTime).mp hk with h' | h'
        · subst h'
          exact mem_urls_of_mapGet hg
        · exact h.accSub k h'

/-! ## Sequence invariants -/

theorem applyOp_inv (now : Nat) (c : ContentCache) (op : CacheOp) (h : CacheInv c) :
    CacheInv (applyOp now c op) := by
  cases op with
  | store url content => exact store_inv now url content c h
  | get url => exact get_inv now url c h

theorem runOpsFrom_inv (ops : List CacheOp) :
    ∀ (c : ContentCache) (now : Nat), CacheInv c → CacheInv (runOpsFrom c now ops) := by
  induction ops with
  | nil => intro c now h; exact h
  | cons op rest ih =>
    intro c now h
    exact ih (applyOp now c op) (now + 1) (applyOp_inv now c op h)

theorem applyOp_maxSize (now : Nat) (c : ContentCache) (op : CacheOp) :
    (applyOp now c op).maxSize = c.maxSize := by
  cases op with
  | store url content => exact store_maxSize now url content c
  | get url => exact get_maxSize now url c

theorem applyOp_cap (now : Nat) (c : ContentCache) (op : CacheOp) (h : CacheInv c)
    (hcap : sumSizes c.entries ≤ c.maxSize) (hok : sizeOkB c.maxSize op = true) :
    sumSizes (applyOp now c op).entries ≤ c.maxSize := by
  cases op with
  | store url content =>
    exact store_cap now url content c h hcap (by simpa [sizeOkB] using hok)
  | get url =>
    rw [applyOp, get_entries]
    exact hcap

theorem runOpsFrom_cap (ops : List CacheOp) :
    ∀ (c : ContentCache) (now : Nat), CacheInv c → sumSizes c.entries ≤ c.maxSize →
      (∀ op ∈ ops, sizeOkB c.maxSize op = true) →
      sumSizes (runOpsFrom c now ops).entries ≤ c.maxSize := by
  induction ops with
  | nil => intro c now _ hcap _; exact hcap
  | cons op rest ih =>
    intro c now h hcap hok
    have hms := applyOp_maxSize now c op
    have hstep : sumSizes (applyOp now c op).entries ≤ (applyOp now c op).maxSize := by
      rw [hms]
      exact applyOp_cap now c op h hcap (hok op (List.mem_cons_self op rest))
    have hrest : ∀ op' ∈ rest, sizeOkB (applyOp now c op).maxSize op' = true := by
      intro op' hmem
      rw [hms]
      exact hok op' (List.mem_cons.mpr (Or.inr hmem))
    have := ih (applyOp now c op) (now + 1) (applyOp_inv now c op h) hstep hrest
    rw [hms] at this
    exact this

/-! ## Claim C1: capacity after store sequences -/

/-- C1 (amended): for every sequence of `store` (and `get`) calls in which
each stored content's own byte size is at most the capacity `C`, the total
byte size of the entries present after every call is at most `C`. (The
unamended claim — including stores whose single content exceeds `C` — is
refuted by `cache_capacity_counterexample`: `evictLRU` can free at most
everything, and `store` then inserts the oversized content regardless.) -/
theorem cache_capacity_of_bounded_contents (C : Nat) (ops : List CacheOp)
    (hops : ∀ op ∈ ops, sizeOkB C op = true) :
    sumSizes (runOps C ops).entries ≤ C := by
  have hcap : sumSizes (ContentCache.empty C).entries ≤ (ContentCache.empty C).maxSize := by
    simp [ContentCache.empty, sumSizes]
  exact runOpsFrom_cap ops (ContentCache.empty C) 0 (cacheInv_empty C) hcap hops

/-- Witness for `cache_capacity_of_bounded_contents` at a concrete
sequence of three calls against capacity 5. -/
theorem cache_capacity_of_bounded_contents_witness :
    (∀ op ∈ [CacheOp.store "a" [1, 1, 1], CacheOp.store "b" [2, 2, 2],
      CacheOp.get "a"], sizeOkB 5 op = true) ∧
    sumSizes (runOps 5 [CacheOp.store "a" [1, 1, 1], CacheOp.store "b" [2, 2, 2],
      CacheOp.get "a"]).entries ≤ 5 :=
  ⟨by decide, cache_capacity_of_bounded_contents 5
    [CacheOp.store "a" [1, 1, 1], CacheOp.store "b" [2, 2, 2], CacheOp.get "a"]
    (by decide)⟩

/-- C1 counterexample: storing a single 3-byte content into a cache of
capacity 2 leaves 3 bytes stored after `store` returns — `evictLRU` frees
nothing from the empty cache and `store` inserts the oversized content
anyway, so the claimed invariant fails for stores whose single content
size exceeds the capacity. -/
theorem cache_capacity_counterexample :
    2 < sumSizes (runOps 2 [CacheOp.store "a" [1, 1, 1]]).entries := by decide

/-! ## LRU order: head of the time-sorted access list -/

theorem key_unique_of_nodup {β : Type} {m : List (String × β)} (hnd : (urls m).Nodup)
    {p q : String × β} (hp : p ∈ m) (hq : q ∈ m) (h : p.1 = q.1) : p = q := by
  induction m with
  | nil => cases hp
  | cons a rest ih =>
    rw [urls, List.map_cons, List.nodup_cons] at hnd
    rcases List.mem_cons.mp hp with hp' | hp' <;> rcases List.mem_cons.mp hq with hq' | hq'
    · rw [hp', hq']
    · have hqa : q.1 = a.1 := by rw [← h, hp']
      exact absurd (List.mem_map.mpr ⟨q, hq', hqa⟩) hnd.1
    · have hpa : p.1 = a.1 := by rw [h, hq']
      exact absurd (List.mem_map.mpr ⟨p, hp', hpa⟩) hnd.1
    · exact ih hnd.2 hp' hq'

/-- The url `evictLRU` deletes first whenever it deletes anything: the
head of the time-ascending access list restricted to truthy entries — the
loop's `if (content)` skips absent or empty entries without touching
them. -/
def nextVictim (c : ContentCache) : Option String :=
  (((ContentCache.sortByTime c.accessTime).filter
    (fun p => entryTruthy c p.1)).head?).map (fun p => p.1)

theorem evictLoop_removes_first_truthy (sorted : List (String × Nat)) :
    ∀ (c : ContentCache) (freed req : Nat) (v : String),
      ((sorted.filter (fun p => entryTruthy c p.1)).head?).map (fun p => p.1) = some v →
      v ∉ urls (ContentCache.evictLoop c sorted freed req).entries := by
  induction sorted with
  | nil =>
    intro c freed req v hv
    simp at hv
  | cons p rest ih =>
    intro c freed req v hv
    rcases hg : mapGet p.1 c.entries with _ | content
    · have htr : entryTruthy c p.1 = false := by simp [entryTruthy, hg]
      rw [List.filter_cons] at hv
      simp only [htr, Bool.false_eq_true, if_false] at hv
      simp only [ContentCache.evictLoop, hg]
      exact ih c freed req v hv
    · simp only [ContentCache.evictLoop, hg]
      by_cases hemp : content.isEmpty
      · have htr : entryTruthy c p.1 = false := by simp [entryTruthy, hg, hemp]
        rw [List.filter_cons] at hv
        simp only [htr, Bool.false_eq_true, if_false] at hv
        rw [if_pos hemp]
        exact ih c freed req v hv
      · have htr : entryTruthy c p.1 = true := by simp [entryTruthy, hg, hemp]
        rw [List.filter_cons] at hv
        simp only [htr, if_true, List.head?_cons, Option.map_some'] at hv
        injection hv with hv
        rw [if_neg hemp]
        by_cases hcond : freed + contentSize content ≥ req
        · rw [if_pos hcond]
          intro hmem
          rcases (mem_urls_mapDelete v p.1 c.entries).mp hmem with ⟨_, hne⟩
          exact hne hv.symm
        · rw [if_neg hcond]
          intro hmem
          rcases List.mem_map.mp hmem with ⟨q, hq, hqv⟩
          have hq' : q ∈ mapDelete p.1 c.entries :=
            (evictLoop_entries_sublist rest _ (freed + contentSize content) req).subset hq
          rcases (mem_mapDelete q p.1 c.entries).mp hq' with ⟨_, hne⟩
          exact hne (hqv.trans hv.symm)

theorem evict_removes_nextVictim (c : ContentCache) (req : Nat) (v : String)
    (hv : nextVictim c = some v) :
    v ∉ urls (ContentCache.evictLRU req c).entries :=
  evictLoop_removes_first_truthy (ContentCache.sortByTime c.accessTime) c 0 req v hv

theorem mem_accessTime_store (t₁ : Nat) (url : String) (content : Content)
    (c : ContentCache) :
    ∀ p ∈ (ContentCache.store t₁ url content c).accessTime,
      p = (url, t₁) ∨ p ∈ c.accessTime := by
  intro p hp
  have hp' : p ∈ mapSet url t₁
      (if c.currentSize + (contentSize content : Int) > (c.maxSize : Int)
        then ContentCache.evictLRU (contentSize content) c else c).accessTime := hp
  rcases mem_of_mem_mapSet hp' with h | h
  · exact Or.inl h
  · by_cases hcond : c.currentSize + (contentSize content : Int) > (c.maxSize : Int)
    · rw [if_pos hcond] at h
      exact Or.inr ((evictLoop_accessTime_sublist _ c 0 _).subset h)
    · rw [if_neg hcond] at h
      exact Or.inr h

/-! ## Claim C4: get-after-store returns the content and protects it -/

theorem protects_core (st : ContentCache) (url : String) (t₂ : Nat)
    (hnd : (urls st.accessTime).Nodup)
    (hmemT2 : (url, t₂) ∈ st.accessTime)
    (hsmall : ∀ p ∈ st.accessTime, p.1 ≠ url → p.2 < t₂)
    (hex : ∃ p ∈ st.accessTime, p.1 ≠ url ∧ entryTruthy st p.1 = true) :
    ∃ v, nextVictim st = some v ∧ v ≠ url ∧
      ∀ req : Nat, v ∉ urls (ContentCache.evictLRU req st).entries := by
  rcases hex with ⟨p₀, hp₀, hp₀ne, hp₀tr⟩
  have hp₀F : p₀ ∈ (ContentCache.sortByTime st.accessTime).filter
      (fun p => entryTruthy st p.1) :=
    List.mem_filter.mpr ⟨mem_sortByTime.mpr hp₀, hp₀tr⟩
  cases hF : (ContentCache.sortByTime st.accessTime).filter
      (fun p => entryTruthy st p.1) with
  | nil =>
    rw [hF] at hp₀F
    cases hp₀F
  | cons q Ft =>
    rw [hF] at hp₀F
    have hFsorted : ((ContentCache.sortByTime st.accessTime).filter
        (fun p => entryTruthy st p.1)).Pairwise ContentCache.timeLE :=
      (sortByTime_sorted st.accessTime).sublist (List.filter_sublist _)
    rw [hF] at hFsorted
    have hqmem : q ∈ st.accessTime := by
      have hqF : q ∈ (ContentCache.sortByTime st.accessTime).filter
          (fun p => entryTruthy st p.1) := by
        rw [hF]
        exact List.mem_cons_self q Ft
      exact mem_sortByTime.mp (List.mem_filter.mp hqF).1
    have hqle : q.2 ≤ p₀.2 := by
      rcases List.mem_cons.mp hp₀F with h' | h'
      · rw [h']
      · exact (List.pairwise_cons.mp hFsorted).1 p₀ h'
    have hqlt : q.2 < t₂ := Nat.lt_of_le_of_lt hqle (hsmall p₀ hp₀ hp₀ne)
    have hqne : q.1 ≠ url := by
      intro hq
      have heq : q = (url, t₂) := key_unique_of_nodup hnd hqmem hmemT2 hq
      rw [heq] at hqlt
      exact Nat.lt_irrefl t₂ hqlt
    have hvic : nextVictim st = some q.1 := by
      rw [nextVictim, hF, List.head?_cons, Option.map_some']
    exact ⟨q.1, hvic, hqne, fun req => evict_removes_nextVictim st req q.1 hvic⟩

/-- C4 (amended): for every url and every NON-EMPTY content, `get(url)`
immediately after `store(url, content)` returns the content unchanged and
stamps the entry with the read's timestamp; consequently, whenever some
older untouched entry with truthy (non-empty) content survives, the next
entry `evictLRU` actually deletes is such an older entry, never `url`.
(The unamended claim — every content value — fails for the empty content:
the source's `if (content)` treats the empty string as a miss; and
present-but-empty older entries are skipped by eviction, so they cannot
shield `url`.) -/
theorem get_after_store_protects (c : ContentCache) (url : String) (content : Content)
    (t₁ t₂ : Nat) (hne : content ≠ []) (hinv : CacheInv c)
    (hold : ∀ p ∈ c.accessTime, p.2 < t₂) :
    (ContentCache.get t₂ url (ContentCache.store t₁ url content c)).1 = some content ∧
    mapGet url
      (ContentCache.get t₂ url (ContentCache.store t₁ url content c)).2.accessTime =
        some t₂ ∧
    ((∃ p ∈ (ContentCache.get t₂ url (ContentCache.store t₁ url content c)).2.accessTime,
        p.1 ≠ url ∧
        entryTruthy (ContentCache.get t₂ url
          (ContentCache.store t₁ url content c)).2 p.1 = true) →
      ∃ v, nextVictim (ContentCache.get t₂ url (ContentCache.store t₁ url content c)).2 =
          some v ∧ v ≠ url ∧
        ∀ req : Nat, v ∉ urls (ContentCache.evictLRU req
          (ContentCache.get t₂ url (ContentCache.store t₁ url content c)).2).entries) := by
  have hinv₁ := store_inv t₁ url content c hinv
  have hinv₂ := get_inv t₂ url (ContentCache.store t₁ url content c) hinv₁
  have hhit : mapGet url (ContentCache.store t₁ url content c).entries = some content :=
    mapGet_mapSet_self url content _
  have hbool : content.isEmpty = false := by
    cases content with
    | nil => exact absurd rfl hne
    | cons a t => rfl
  have hgetEq : ContentCache.get t₂ url (ContentCache.store t₁ url content c) =
      (some content, ⟨(ContentCache.store t₁ url content c).maxSize,
        (ContentCache.store t₁ url content c).currentSize,
        (ContentCache.store t₁ url content c).entries,
        mapSet url t₂ (ContentCache.store t₁ url content c).accessTime⟩) := by
    simp [ContentCache.get, hhit, hbool]
  rw [hgetEq] at hinv₂ ⊢
  refine ⟨rfl, mapGet_mapSet_self url t₂ _, ?_⟩
  intro hex
  refine protects_core _ url t₂ hinv₂.ndAcc
    (mapGet_mem (mapGet_mapSet_self url t₂ _)) ?_ hex
  intro p hp hpne
  rcases mem_of_mem_mapSet hp with h | h
  · exact absurd (by rw [h]) hpne
  · rcases mem_accessTime_store t₁ url content c p h with h' | h'
    · exact absurd (by rw [h']) hpne
    · exact hold p h'

/-- A small concrete cache holding one older non-empty entry, used to
witness the get-after-store protection theorem. -/
def demoCache : ContentCache :=
  ContentCache.store 0 "old" [5, 5] (ContentCache.empty 100)

/-- Witness for `get_after_store_protects`: storing `[7]` under "b" at
time 1 and reading it at time 2 protects "b"; the next victim is the older
non-empty entry "old". -/
theorem get_after_store_protects_witness :
    (ContentCache.get 2 "b" (ContentCache.store 1 "b" [7] demoCache)).1 = some [7] ∧
    mapGet "b"
      (ContentCache.get 2 "b" (ContentCache.store 1 "b" [7] demoCache)).2.accessTime =
        some 2 ∧
    ∃ v, nextVictim (ContentCache.get 2 "b" (ContentCache.store 1 "b" [7] demoCache)).2 =
        some v ∧ v ≠ "b" ∧
      ∀ req : Nat, v ∉ urls (ContentCache.evictLRU req
        (ContentCache.get 2 "b" (ContentCache.store 1 "b" [7] demoCache)).2).entries := by
  have h := get_after_store_protects demoCache "b" [7] 1 2 (by decide)
    ⟨by decide, by decide, by decide, by decide, by decide⟩ (by decide)
  exact ⟨h.1, h.2.1, h.2.2 ⟨("old", 0), by decide, by decide, by decide⟩⟩

/-- C4 counterexample: for the empty content (a falsy string in the
source's `if (content)` test), `get` right after `store` returns null —
not the stored content — and the access time keeps the store's stamp
rather than being refreshed by the read. -/
theorem get_after_store_empty_content_cex :
    (ContentCache.get 1 "a" (ContentCache.store 0 "a" [] (ContentCache.empty 10))).1 =
      none ∧
    mapGet "a"
      (ContentCache.get 1 "a"
        (ContentCache.store 0 "a" [] (ContentCache.empty 10))).2.accessTime =
      some 0 := by decide

/-! ## Claim C7: eviction order -/

/-- C7 (amended): whenever `evictLRU` runs, the entries it removes are
exactly an initial segment of the access map sorted ascending by
last-access time and RESTRICTED to truthy entries — the loop's
`if (content)` skips a present-but-empty entry out of LRU order, leaving
it unevicted for ever (ties are broken by map iteration order, which the
stable sort preserves). In the concrete all-non-empty protection scenario
— store "a", store "b", `get` "a", then a store of "c" that overflows
capacity 10 — the untouched older entry "b" is evicted while the freshly
read "a" survives. -/
theorem evictLRU_lru_order :
    (∀ (c : ContentCache) (req : Nat), CacheInv c →
      (ContentCache.sortByTime c.accessTime).Sorted ContentCache.timeLE ∧
      ∃ n, n ≤ ((ContentCache.sortByTime c.accessTime).filter
          (fun p => entryTruthy c p.1)).length ∧
        (ContentCache.evictLRU req c).entries =
          deleteAll ((((ContentCache.sortByTime c.accessTime).filter
            (fun p => entryTruthy c p.1)).take n).map (fun p => p.1)) c.entries) ∧
    (mapGet "a" (runOps 10 [CacheOp.store "a" [0, 0, 0, 0],
        CacheOp.store "b" [0, 0, 0, 0], CacheOp.get "a",
        CacheOp.store "c" [0, 0, 0, 0]]).entries = some [0, 0, 0, 0] ∧
      mapGet "b" (runOps 10 [CacheOp.store "a" [0, 0, 0, 0],
        CacheOp.store "b" [0, 0, 0, 0], CacheOp.get "a",
        CacheOp.store "c" [0, 0, 0, 0]]).entries = none ∧
      mapGet "c" (runOps 10 [CacheOp.store "a" [0, 0, 0, 0],
        CacheOp.store "b" [0, 0, 0, 0], CacheOp.get "a",
        CacheOp.store "c" [0, 0, 0, 0]]).entries = some [0, 0, 0, 0]) := by
  constructor
  · intro c req hinv
    refine ⟨sortByTime_sorted c.accessTime, ?_⟩
    exact evictLoop_initial_segment (ContentCache.sortByTime c.accessTime) c 0 req
      (nodup_urlsSortByTime hinv.ndAcc)
  · exact ⟨by decide, by decide, by decide⟩

/-- The cache state just before the overflowing store of the C7 scenario. -/
def demoCacheTwo : ContentCache :=
  runOps 10 [CacheOp.store "a" [0, 0, 0, 0], CacheOp.store "b" [0, 0, 0, 0],
    CacheOp.get "a"]

/-- Witness for `evictLRU_lru_order` at the concrete pre-overflow state. -/
theorem evictLRU_lru_order_witness :
    (ContentCache.sortByTime demoCacheTwo.accessTime).Sorted ContentCache.timeLE ∧
    ∃ n, n ≤ ((ContentCache.sortByTime demoCacheTwo.accessTime).filter
        (fun p => entryTruthy demoCacheTwo p.1)).length ∧
      (ContentCache.evictLRU 4 demoCacheTwo).entries =
        deleteAll ((((ContentCache.sortByTime demoCacheTwo.accessTime).filter
          (fun p => entryTruthy demoCacheTwo p.1)).take n).map
          (fun p => p.1)) demoCacheTwo.entries :=
  evictLRU_lru_order.1 demoCacheTwo 4
    ⟨by decide, by decide, by decide, by decide, by decide⟩

/-- The operation sequence of the C7 counterexample: an empty (falsy)
entry "old" is inserted first, "b" is stored and freshly read, then an
overflowing store triggers eviction. -/
def emptyEntryOps : List CacheOp :=
  [CacheOp.store "old" [], CacheOp.store "b" [7], CacheOp.get "b",
   CacheOp.store "c" [0, 0, 0, 0, 0, 0, 0, 0, 0, 0]]

/-- C7 counterexample: with capacity 10 and sizes summing over capacity,
eviction does NOT remove entries in least-recent-first order — the oldest
entry "old" (present with empty content, skipped by `if (content)`)
survives while the most recently accessed entry "b", freshly read via
`get` just before the large insertion, is evicted. This refutes both the
strict-LRU ordering and the claimed protection of a freshly-read entry
ahead of an older untouched one. -/
theorem evict_skips_empty_counterexample :
    mapGet "b" (runOps 10 emptyEntryOps).entries = none ∧
    mapGet "old" (runOps 10 emptyEntryOps).entries = some [] ∧
    mapGet "old" (runOps 10 emptyEntryOps).accessTime = some 0 ∧
    mapGet "c" (runOps 10 emptyEntryOps).entries =
      some [0, 0, 0, 0, 0, 0, 0, 0, 0, 0] := by decide

/-! ## Claims C2, C5, C10: the hub's broadcast -/

/-- C2: the hub delivers an inbound message only to clients registered in
the message's room, and never to the client whose id equals the message's
sender id; any client outside the room (or equal to the sender) receives
nothing. -/
theorem hub_broadcast_room_isolation (rooms : Rooms) (m : SignalMessage) :
    (∀ p ∈ hubBroadcast rooms m,
      p.1 ∈ roomMembers rooms m.roomId ∧ p.1 ≠ m.senderId) ∧
    (∀ cid : String, (cid ∉ roomMembers rooms m.roomId ∨ cid = m.senderId) →
      ∀ p ∈ hubBroadcast rooms m, p.1 ≠ cid) := by
  have hmain : ∀ p ∈ hubBroadcast rooms m,
      p.1 ∈ roomMembers rooms m.roomId ∧ p.1 ≠ m.senderId := by
    intro p hp
    rw [hubBroadcast] at hp
    rcases List.mem_map.mp hp with ⟨cid, hcid, rfl⟩
    rcases List.mem_filter.mp hcid with ⟨hmem, hne⟩
    exact ⟨hmem, of_decide_eq_true hne⟩
  refine ⟨hmain, ?_⟩
  intro cid hcid p hp heq
  rcases hmain p hp with ⟨hmem, hne⟩
  rcases hcid with h | h
  · exact h (heq ▸ hmem)
  · exact hne (heq.trans h)

/-- The hub room registry used in the concrete hub witnesses. -/
def demoRooms : Rooms := [("r", ["a", "b"]), ("s", ["d"])]

/-- The concrete inbound message used in the hub witnesses. -/
def demoMsg : SignalMessage := ⟨0, [42, 43], "a", 5, "r"⟩

/-- Witness for `hub_broadcast_room_isolation`: the one delivery of the
concrete broadcast goes to "b", a member of room "r" distinct from the
sender "a". -/
theorem hub_broadcast_room_isolation_witness :
    ("b", ([42, 43] : Content)).1 ∈ roomMembers demoRooms demoMsg.roomId ∧
    ("b", ([42, 43] : Content)).1 ≠ demoMsg.senderId :=
  (hub_broadcast_room_isolation demoRooms demoMsg).1 ("b", [42, 43]) (by decide)

/-- C5 (code evaluation): the broadcast arm of `Hub.Run` writes
`message.Payload` — only the payload bytes — to each recipient: the
delivered bytes of the concrete broadcast are exactly the payload, and two
messages differing in type and timestamp (hence not verbatim-equal) yield
identical deliveries, so the delivered bytes cannot carry the full message
(type, sender id, timestamp, room id). -/
theorem hub_broadcast_delivers_payload_bytes :
    hubBroadcast [("r", ["a", "b"])] ⟨0, [42, 43], "a", 5, "r"⟩ =
      [("b", [42, 43])] ∧
    (⟨1, [42, 43], "a", 99, "r"⟩ : SignalMessage) ≠ ⟨0, [42, 43], "a", 5, "r"⟩ ∧
    hubBroadcast [("r", ["a", "b"])] ⟨1, [42, 43], "a", 99, "r"⟩ =
      hubBroadcast [("r", ["a", "b"])] ⟨0, [42, 43], "a", 5, "r"⟩ := by decide

/-- C10: `Client.ReadPump` overwrites the unmarshaled message's sender id
with the id bound to the connection before handing it to the hub, so the
broadcast outcome is identical for any sender id the client wrote into the
message body, the forwarded sender id is the connection's id, and the
self-exclusion skips exactly the connection's id — sender spoofing is
impossible. -/
theorem readPump_overwrites_sender (rooms : Rooms) (connId : String)
    (m : SignalMessage) (spoofed : String) :
    (readPumpForward connId m).senderId = connId ∧
    hubBroadcast rooms (readPumpForward connId { m with senderId := spoofed }) =
      hubBroadcast rooms (readPumpForward connId m) ∧
    ∀ p ∈ hubBroadcast rooms (readPumpForward connId m), p.1 ≠ connId := by
  refine ⟨rfl, rfl, ?_⟩
  intro p hp
  rw [hubBroadcast] at hp
  rcases List.mem_map.mp hp with ⟨cid, hcid, rfl⟩
  rcases List.mem_filter.mp hcid with ⟨_, hne⟩
  exact of_decide_eq_true hne

/-- The spoofed inbound message of the C10 witness: its body claims sender
"mallory". -/
def demoSpoof : SignalMessage := ⟨0, [42, 43], "mallory", 5, "r"⟩

/-- Witness for `readPump_overwrites_sender` on connection "a": the
forwarded sender is "a" and the delivery to "b" does not go to "a". -/
theorem readPump_overwrites_sender_witness :
    (readPumpForward "a" demoSpoof).senderId = "a" ∧
    ("b", ([42, 43] : Content)).1 ≠ "a" :=
  ⟨(readPump_overwrites_sender demoRooms "a" demoSpoof "evil").1,
    (readPump_overwrites_sender demoRooms "a" demoSpoof "evil").2.2
      ("b", [42, 43]) (by decide)⟩

/-! ## Claim C6: ICE candidates are not queued -/

/-- C6 (amended): `handleIceCandidate` applies a candidate immediately
when a peer connection for the sender already exists, and silently drops
it — there is no queue — when none exists; in particular, in the
interleaved sequence {IceCandidate, Offer, IceCandidate, Answer} the first
candidate is lost and only the second is applied. -/
theorem iceCandidate_drop_or_apply (st : PeerState) (m : SignalMessage)
    (htype : m.type = 2) :
    (mapGet m.senderId st.peerConnections = none → handleSignalingMessage st m = st) ∧
    (∀ pc, mapGet m.senderId st.peerConnections = some pc →
      mapGet m.senderId (handleSignalingMessage st m).peerConnections =
        some ⟨pc.remoteDesc, pc.applied ++ [m.payload]⟩) := by
  have h0 : ¬ m.type = 0 := by omega
  have h1 : ¬ m.type = 1 := by omega
  rw [handleSignalingMessage, if_neg h0, if_neg h1, if_pos htype]
  constructor
  · intro hnone
    simp only [handleIceCandidate, hnone]
  · intro pc hpc
    simp only [handleIceCandidate, hpc]
    exact mapGet_mapSet_self m.senderId _ _

/-- Witness for `iceCandidate_drop_or_apply`: a candidate from "p"
arriving at the empty session table is dropped — the state is unchanged. -/
theorem iceCandidate_drop_or_apply_witness :
    handleSignalingMessage ⟨[]⟩ ⟨2, [1], "p", 0, "r"⟩ = ⟨[]⟩ :=
  (iceCandidate_drop_or_apply ⟨[]⟩ ⟨2, [1], "p", 0, "r"⟩ rfl).1 (by decide)

/-- C6 counterexample: processing {IceCandidate [1], Offer, IceCandidate
[2], Answer} from peer "p" ends with a remote description present but only
the second candidate applied — the first was dropped before the offer
created the connection, refuting the claim that every candidate is queued
and applied once a remote description exists. -/
theorem ice_before_offer_dropped_cex :
    mapGet "p" (processMessages ⟨[]⟩
      [⟨2, [1], "p", 0, "r"⟩, ⟨0, [7], "p", 1, "r"⟩,
       ⟨2, [2], "p", 2, "r"⟩, ⟨1, [8], "p", 3, "r"⟩]).peerConnections =
      some ⟨some [8], [[2]]⟩ ∧
    ([1] : Content) ∉ ([[2]] : List Content) := by decide

/-! ## Claims C8 and C3: the tiered resolver -/

/-- C8 (amended): resolving a URL present in the cache with NON-EMPTY
content returns immediately with the cached content tagged source
"cache", sends no peer `ContentRequest`, performs no origin fetch, and
leaves the cache's entries unchanged. (The unamended claim — every url
already present — fails for a url present with empty content: the
source's `if (cached)` treats the falsy empty string as a miss and the
resolver then does issue peer and origin requests.) -/
theorem cache_hit_no_requests (now : Nat) (url : String) (peers : List String)
    (reply : String → String → Option Content) (originResp : Response)
    (c : ContentCache) (content : Content)
    (hhit : mapGet url c.entries = some content) (hne : content.isEmpty = false) :
    (interceptRequest now url peers reply originResp c).response =
      ⟨200, "cache", content⟩ ∧
    (interceptRequest now url peers reply originResp c).peerRequests = [] ∧
    (interceptRequest now url peers reply originResp c).originFetched = false ∧
    (interceptRequest now url peers reply originResp c).cache.entries = c.entries := by
  have hgetEq : ContentCache.get now url c = (some content,
      ⟨c.maxSize, c.currentSize, c.entries, mapSet url now c.accessTime⟩) := by
    simp [ContentCache.get, hhit, hne]
  simp only [interceptRequest, hgetEq]
  simp [createResponseFromCache]

/-- A cache already holding "/x.js", for the C8 witness. -/
def cacheWithHit : ContentCache :=
  ContentCache.store 0 "/x.js" [3, 3] (ContentCache.empty 100)

/-- Witness for `cache_hit_no_requests`: even with a peer present and an
answering reply oracle, a hit on "/x.js" consults nobody. -/
theorem cache_hit_no_requests_witness :
    (interceptRequest 1 "/x.js" ["p1"] (fun _ _ => some [9]) ⟨200, "", [8]⟩
      cacheWithHit).response = ⟨200, "cache", [3, 3]⟩ ∧
    (interceptRequest 1 "/x.js" ["p1"] (fun _ _ => some [9]) ⟨200, "", [8]⟩
      cacheWithHit).peerRequests = [] ∧
    (interceptRequest 1 "/x.js" ["p1"] (fun _ _ => some [9]) ⟨200, "", [8]⟩
      cacheWithHit).originFetched = false ∧
    (interceptRequest 1 "/x.js" ["p1"] (fun _ _ => some [9]) ⟨200, "", [8]⟩
      cacheWithHit).cache.entries = cacheWithHit.entries :=
  cache_hit_no_requests 1 "/x.js" ["p1"] (fun _ _ => some [9]) ⟨200, "", [8]⟩
    cacheWithHit [3, 3] (by decide) (by decide)

/-- A cache holding "/e.js" with empty content, for the C8
counterexample. -/
def cacheWithEmptyHit : ContentCache :=
  ContentCache.store 0 "/e.js" [] (ContentCache.empty 100)

/-- C8 counterexample: "/e.js" is present in the cache (with empty
content), yet resolving it sends a `ContentRequest` to peer "p1" and
falls through to the origin fetch — the `if (cached)` truthiness test
treats the empty cached string as a miss, refuting the claim for urls
present with empty content. -/
theorem cache_hit_empty_counterexample :
    mapGet "/e.js" cacheWithEmptyHit.entries = some [] ∧
    (interceptRequest 1 "/e.js" ["p1"] (fun _ _ => none) ⟨200, "", [8]⟩
      cacheWithEmptyHit).peerRequests = ["p1"] ∧
    (interceptRequest 1 "/e.js" ["p1"] (fun _ _ => none) ⟨200, "", [8]⟩
      cacheWithEmptyHit).originFetched = true := by decide

/-- C3 (code evaluation): on the tier-3 origin path — empty cache, no
peers — `interceptRequest` returns the raw origin response and the url is
still absent from the cache afterwards: the source's origin arm is
`return originalFetch(url, init)` with no `cache.store`, contradicting the
spec's "unconditionally store it in Cache". (The tier-1 half of the claim
— hits are never re-stored — does hold: the hit path leaves the cache's
entries unchanged.) -/
theorem origin_result_not_stored :
    (interceptRequest 0 "/a.js" [] (fun _ _ => none) ⟨200, "", [9, 9]⟩
        (ContentCache.empty 100)).originFetched = true ∧
    (interceptRequest 0 "/a.js" [] (fun _ _ => none) ⟨200, "", [9, 9]⟩
        (ContentCache.empty 100)).response = ⟨200, "", [9, 9]⟩ ∧
    mapGet "/a.js" (interceptRequest 0 "/a.js" [] (fun _ _ => none) ⟨200, "", [9, 9]⟩
        (ContentCache.empty 100)).cache.entries = none := by decide

/-! ## Claim C9: the `currentSize` counter versus the stored bytes -/

/-- C9 (amended): after every sequence of `store` and `get` operations the
recorded `currentSize` is at least the total byte size of the entries
actually present. Equality fails in general: `store` on an already-present
url replaces the entry but adds the full new size without subtracting the
old entry's still-counted size; a double store of one url shows the counter
exceeding the stored bytes. -/
theorem currentSize_ge_sumSizes (C : Nat) (ops : List CacheOp) :
    (sumSizes (runOps C ops).entries : Int) ≤ (runOps C ops).currentSize :=
  (runOpsFrom_inv ops (ContentCache.empty C) 0 (cacheInv_empty C)).sizeLe

/-- C9 counterexample: storing the same 2-byte content twice under one url
leaves one 2-byte entry but `currentSize = 4` — the overwrite added the
full new size on top of the old entry's still-counted size, so the claimed
equality (and the claimed adjust-by-difference behaviour) fails. -/
theorem currentSize_overwrite_counterexample :
    (runOps 10 [CacheOp.store "a" [1, 1], CacheOp.store "a" [1, 1]]).currentSize = 4 ∧
    sumSizes (runOps 10 [CacheOp.store "a" [1, 1], CacheOp.store "a" [1, 1]]).entries = 2 ∧
    (runOps 10 [CacheOp.store "a" [1, 1], CacheOp.store "a" [1, 1]]).currentSize ≠
      (sumSizes (runOps 10 [CacheOp.store "a" [1, 1],
        CacheOp.store "a" [1, 1]]).entries : Int) := by decide